import Mathlib

/-!
Verification of the essay-reading pipeline of this repository
(`ocr.py`, `corretor.py`, `app.py`).

Python strings are modelled as `List Char`.  Python's character
classification methods (`str.isalpha`, `str.isalnum`, `str.isspace`) and
line boundaries (`str.splitlines`) are restricted to the Latin/ASCII
repertoire the program manipulates (letters with Portuguese diacritics,
ASCII controls, NEL, NBSP and the Unicode line/paragraph separators);
this restriction is stated in each predicate's doc string.
-/

set_option autoImplicit false

/-- Characters of a string literal, used to write concrete inputs. -/
def strL (s : String) : List Char := s.data

/-- Python `str.isspace`, restricted to tab..CR, the ASCII separators
FS/GS/RS/US, space, NEL (U+0085), NBSP (U+00A0), LINE SEPARATOR (U+2028)
and PARAGRAPH SEPARATOR (U+2029). -/
def pyIsSpace (c : Char) : Bool :=
  c == ' ' || c == '\t' || c == '\n' || c == Char.ofNat 11 ||
  c == Char.ofNat 12 || c == '\r' || c == Char.ofNat 28 ||
  c == Char.ofNat 29 || c == Char.ofNat 30 || c == Char.ofNat 31 ||
  c == Char.ofNat 133 || c == Char.ofNat 160 ||
  c == Char.ofNat 8232 || c == Char.ofNat 8233

/-- The line boundaries of Python `str.splitlines`: LF, CR (a following
LF is merged with it), VT, FF, FS, GS, RS, NEL, LINE SEPARATOR and
PARAGRAPH SEPARATOR. -/
def isLineBoundary (c : Char) : Bool :=
  c == '\n' || c == '\r' || c == Char.ofNat 11 || c == Char.ofNat 12 ||
  c == Char.ofNat 28 || c == Char.ofNat 29 || c == Char.ofNat 30 ||
  c == Char.ofNat 133 || c == Char.ofNat 8232 || c == Char.ofNat 8233

/-- Python `str.isalpha`, restricted to ASCII letters and the accented
Latin letters the program's texts use. -/
def pyIsAlpha (c : Char) : Bool :=
  c.isAlpha ||
  (strL "áéíóúâêôãõàèìòùäëïöüçñÁÉÍÓÚÂÊÔÃÕÀÈÌÒÙÄËÏÖÜÇÑ").contains c

/-- Python `str.isalnum`, same restriction as `pyIsAlpha`. -/
def pyIsAlnum (c : Char) : Bool :=
  pyIsAlpha c || c.isDigit

/-- The vowel class of the regex in `filtro_palavra`
(`corretor.py`, line 176): `[aeiouáéíóúâêôãõAEIOUÁÉÍÓÚÂÊÔÃÕ]`. -/
def vowels : List Char := strL "aeiouáéíóúâêôãõAEIOUÁÉÍÓÚÂÊÔÃÕ"

/-- Python `str.strip()` with no argument: remove leading and trailing
whitespace. -/
def pyStrip (l : List Char) : List Char :=
  ((l.dropWhile pyIsSpace).reverse.dropWhile pyIsSpace).reverse

/-- Replace every CR-LF pair by a single LF, so that Python's rule that
`"\r\n"` is one `splitlines` boundary reduces to single-character
boundaries. -/
def joinCrlf : List Char → List Char
  | [] => []
  | [c] => [c]
  | c :: d :: rest =>
      if c == '\r' && d == '\n' then '\n' :: joinCrlf rest
      else c :: joinCrlf (d :: rest)

/-- Worker for `pySplitlines`; `acc` holds the current line reversed.
A final unterminated segment yields a line only when nonempty, as in
Python. -/
def splitlinesGo (acc : List Char) : List Char → List (List Char)
  | [] => if acc.isEmpty then [] else [acc.reverse]
  | c :: rest =>
      if isLineBoundary c then acc.reverse :: splitlinesGo [] rest
      else splitlinesGo (c :: acc) rest

/-- Python `str.splitlines()`. -/
def pySplitlines (l : List Char) : List (List Char) :=
  splitlinesGo [] (joinCrlf l)

/-- The character class `[ \t]` of the whitespace-collapsing regex
(`corretor.py`, line 172). -/
def isSpTab (c : Char) : Bool := c == ' ' || c == '\t'

/-- Worker for `collapseSpaces`; the flag records whether the previous
character belonged to a space/tab run already replaced by one space. -/
def collapseGo : Bool → List Char → List Char
  | _, [] => []
  | b, c :: rest =>
      if isSpTab c then
        if b then collapseGo true rest else ' ' :: collapseGo true rest
      else c :: collapseGo false rest

/-- `re.sub(r"[ \t]+", " ", ·)`: replace every run of spaces/tabs by a
single space. -/
def collapseSpaces (l : List Char) : List Char := collapseGo false l

/-- Worker for `pySplit`; `acc` holds the current token reversed. -/
def pySplitGo (acc : List Char) : List Char → List (List Char)
  | [] => if acc.isEmpty then [] else [acc.reverse]
  | c :: rest =>
      if pyIsSpace c then
        if acc.isEmpty then pySplitGo [] rest
        else acc.reverse :: pySplitGo [] rest
      else pySplitGo (c :: acc) rest

/-- Python `str.split()` with no argument: split on runs of whitespace,
dropping empty tokens. -/
def pySplit (l : List Char) : List (List Char) := pySplitGo [] l

/-- Worker for `splitNl`. -/
def splitNlGo (acc : List Char) : List Char → List (List Char)
  | [] => [acc.reverse]
  | c :: rest =>
      if c == '\n' then acc.reverse :: splitNlGo [] rest
      else splitNlGo (c :: acc) rest

/-- Python `str.split("\n")`: split on every newline, keeping empty
pieces. -/
def splitNl (l : List Char) : List (List Char) := splitNlGo [] l

/-- `sum(c.isalpha() for c in linha)` (`corretor.py`, line 163). -/
def countLetras (l : List Char) : Nat := (l.filter pyIsAlpha).length

/-- `sum(not c.isalnum() and not c.isspace() for c in linha)`
(`corretor.py`, line 164). -/
def countSimbolos (l : List Char) : Nat :=
  (l.filter (fun c => !pyIsAlnum c && !pyIsSpace c)).length

/-- The line-drop test of `limpar_ruidos_ocr` (`corretor.py`,
lines 162-166): a line is skipped when it is nonempty, has no
alphabetic character, and has more than 3 symbol characters. -/
def dropLine (linha : List Char) : Bool :=
  decide (0 < linha.length) &&
    (decide (countLetras linha = 0) && decide (3 < countSimbolos linha))

/-- `filtro_palavra` (`corretor.py`, lines 174-178): a token of length
at least 4 with no vowel is rejected; every other token is kept. -/
def filtro_palavra (p : List Char) : Bool :=
  !(decide (4 ≤ p.length) && !(p.any (fun c => vowels.contains c)))

/-- `linhas` of `limpar_ruidos_ocr` (`corretor.py`, line 158): the
input's lines, each stripped. -/
def linhasOf (texto : List Char) : List (List Char) :=
  (pySplitlines texto).map pyStrip

/-- `linhas_limpa` (`corretor.py`, lines 160-168): the stripped lines
that survive the line-drop test. -/
def linhasLimpaOf (texto : List Char) : List (List Char) :=
  (linhasOf texto).filter (fun l => !dropLine l)

/-- `texto2` (`corretor.py`, lines 170-172): surviving lines joined by
newlines, with space/tab runs collapsed. -/
def texto2Of (texto : List Char) : List Char :=
  collapseSpaces (List.intercalate ['\n'] (linhasLimpaOf texto))

/-- The per-line body of the paragraph loop (`corretor.py`,
lines 181-184): split into tokens, keep those accepted by
`filtro_palavra`, rejoin with single spaces. -/
def limparParagrafo (par : List Char) : List Char :=
  List.intercalate [' '] ((pySplit par).filter filtro_palavra)

/-- `paragrafos` (`corretor.py`, lines 180-184). -/
def paragrafosOf (texto : List Char) : List (List Char) :=
  (splitNl (texto2Of texto)).map limparParagrafo

/-- `limpar_ruidos_ocr` (`corretor.py`, lines 150-188), the Noise
Filter: drop symbol-only lines, collapse whitespace, filter
non-linguistic tokens, rejoin and strip. -/
def limpar_ruidos_ocr (texto : List Char) : List Char :=
  pyStrip (List.intercalate ['\n'] (paragrafosOf texto))

/-- Proof helper: drop the empty lines at both ends of a line list.
Joining with newlines and stripping the result is the same as joining
the trimmed list (when no line has whitespace at its edges). -/
def trimEmptyLines (P : List (List Char)) : List (List Char) :=
  ((P.dropWhile List.isEmpty).reverse.dropWhile List.isEmpty).reverse

/-!
### The reading pipeline of `ocr.py`

The imaging library (`cv2`), the PDF library (`fitz`) and the two
transcription services are external capabilities: they are modelled as
oracle fields of `Cv2` and `OcrWorld`, functions of the raw bytes they
are given.  Byte strings are modelled as `List Nat`.
-/

/-- An abstract decoded raster image (a `cv2` matrix); only the success
of decoding and encoding matters to the claims, so its contents are not
modelled. -/
structure Img where
  id : Nat

/-- The imaging capabilities used by the two Image Normalizer variants
on the non-raising domain of `cv2.imdecode`: on a nonempty buffer that
is not a decodable image, `cv2.imdecode` returns `None`, modelled by
`imdecode` returning `none`; `imencodePng` returning `none` models
`cv2.imencode(".png", ...)` reporting failure.  On the empty buffer
`cv2.imdecode` instead raises `cv2.error` (its `!buf.empty()`
assertion); that raising path is modelled by `Cv2Exc`/`cv2_imdecode`
below.  The Fallback Orchestrator reaches the Normalizer only with the
nonempty upload payload or with a rendered page (a PNG produced by
`pix.tobytes("png")`, never empty), so on its runs this non-raising
model is exact. -/
structure Cv2 where
  imdecode : List Nat → Option Img
  aggressiveSteps : Img → Img
  gentleSteps : Img → Img
  imencodePng : Img → Option (List Nat)

/-- `preprocess_image_for_ocr` (`ocr.py`, lines 27-82), the aggressive
Image Normalizer: decode; on decode failure return the input bytes
unchanged; otherwise run the crop/deskew/equalize/binarize/line-removal/
dilate chain (abstracted as `aggressiveSteps`) and re-encode, returning
the input bytes unchanged if encoding fails. -/
def preprocess_image_for_ocr (v : Cv2) (file_bytes : List Nat) : List Nat :=
  match v.imdecode file_bytes with
  | none => file_bytes
  | some img =>
      match v.imencodePng (v.aggressiveSteps img) with
      | none => file_bytes
      | some buf => buf

/-- `preprocess_image_bytes` (`corretor.py`, lines 26-72), the gentle
Image Normalizer: decode; on decode failure return the input bytes
unchanged; otherwise run the grayscale/blur/Hough-deskew chain
(abstracted as `gentleSteps`) and re-encode, returning the input bytes
unchanged if encoding fails. -/
def preprocess_image_bytes (v : Cv2) (file_bytes : List Nat) : List Nat :=
  match v.imdecode file_bytes with
  | none => file_bytes
  | some img =>
      match v.imencodePng (v.gentleSteps img) with
      | none => file_bytes
      | some buf => buf

/-- Refined imaging model with the raising path of `cv2.imdecode`
explicit.  `imdecodeNonempty` is the value of `cv2.imdecode` on a
nonempty buffer (`none` = undecodable); on the empty buffer the
function does not return at all but raises `cv2.error` (the
`!buf.empty()` assertion in OpenCV's decoder). -/
structure Cv2Exc where
  imdecodeNonempty : List Nat → Option Img
  aggressiveSteps : Img → Img
  gentleSteps : Img → Img
  imencodePng : Img → Option (List Nat)

/-- `cv2.imdecode` with its raising path: `Except.error ()` models the
raised `cv2.error` on an empty buffer. -/
def cv2_imdecode (v : Cv2Exc) (file_bytes : List Nat) :
    Except Unit (Option Img) :=
  if file_bytes.isEmpty then Except.error ()
  else Except.ok (v.imdecodeNonempty file_bytes)

/-- `preprocess_image_for_ocr` (`ocr.py`, lines 27-82) over the refined
imaging model: there is no `try` around the decode, so the `cv2.error`
raised on an empty payload propagates out of the function
(`Except.error ()`); a `None` decode returns the input bytes unchanged,
as does an encode failure. -/
def preprocess_image_for_ocr_exc (v : Cv2Exc) (file_bytes : List Nat) :
    Except Unit (List Nat) :=
  match cv2_imdecode v file_bytes with
  | Except.error e => Except.error e
  | Except.ok none => Except.ok file_bytes
  | Except.ok (some img) =>
      match v.imencodePng (v.aggressiveSteps img) with
      | none => Except.ok file_bytes
      | some buf => Except.ok buf

/-- `preprocess_image_bytes` (`corretor.py`, lines 26-72) over the
refined imaging model; like the aggressive variant, it has no handler
for the `cv2.error` raised on an empty payload. -/
def preprocess_image_bytes_exc (v : Cv2Exc) (file_bytes : List Nat) :
    Except Unit (List Nat) :=
  match cv2_imdecode v file_bytes with
  | Except.error e => Except.error e
  | Except.ok none => Except.ok file_bytes
  | Except.ok (some img) =>
      match v.imencodePng (v.gentleSteps img) with
      | none => Except.ok file_bytes
      | some buf => Except.ok buf

/-- The external world seen by `ocr.py`: the imaging library, the PDF
library (`pdfPages b` is the list of `page.get_text()` results of the
PDF `b`, in page order; `renderPdf` is `render_pdf_to_image`), and the
two transcription services.  `geminiResp b m = none` models
`generate_content` raising `ClientError` (the 4xx failures the engine
catches: rate limit, rejection); `some t` models a successful response
whose `response.text or ""` is `t`.  A `ServerError` (5xx) is not
caught anywhere and aborts the whole request; that escaping path is
modelled by `GenaiOutcome`/`ocr_gemini_exc` below, and this world
describes the runs in which the engine returns.  `tessResp b = none`
models either `Image.open` or `pytesseract.image_to_string` raising;
`some t` models the engine returning `t`. -/
structure OcrWorld where
  cv : Cv2
  pdfPages : List Nat → List (List Char)
  renderPdf : List Nat → List Nat
  geminiResp : List Nat → String → Option (List Char)
  tessResp : List Nat → Option (List Char)

/-- `pdf_possui_texto` (`ocr.py`, lines 85-93): true when some page's
extracted text is nonempty after stripping. -/
def pdf_possui_texto (w : OcrWorld) (pdf_bytes : List Nat) : Bool :=
  (w.pdfPages pdf_bytes).any (fun page => !(pyStrip page).isEmpty)

/-- `ocr_gemini` (`ocr.py`, lines 105-125) on the runs where it
returns: on `ClientError` return the empty string; on success return
`(response.text or "").strip()`.  The uncaught `ServerError` path is
modelled by `ocr_gemini_exc`. -/
def ocr_gemini (w : OcrWorld) (file_bytes : List Nat) (mime_type : String) :
    List Char :=
  match w.geminiResp file_bytes mime_type with
  | none => []
  | some t => pyStrip t

/-- Outcome of `client.models.generate_content` as seen by
`ocr_gemini`: a `ClientError` (4xx: rate limit, rejection), a
`ServerError` (5xx, e.g. 503), or a successful response whose
`response.text or ""` is `t`. -/
inductive GenaiOutcome where
  | clientError
  | serverError
  | ok (t : List Char)

/-- The transcription service with both of its failure classes. -/
structure GenaiService where
  respond : List Nat → String → GenaiOutcome

/-- `ocr_gemini` (`ocr.py`, lines 105-125) over the refined service
model, with the exception path explicit: the `try/except ClientError`
at line 121 catches only `ClientError` and returns `""`; a
`ServerError` escapes the function (`Except.error ()`); on success the
stripped text is returned. -/
def ocr_gemini_exc (g : GenaiService) (file_bytes : List Nat)
    (mime_type : String) : Except Unit (List Char) :=
  match g.respond file_bytes mime_type with
  | GenaiOutcome.clientError => Except.ok []
  | GenaiOutcome.serverError => Except.error ()
  | GenaiOutcome.ok t => Except.ok (pyStrip t)

/-- `ocr_tesseract` (`ocr.py`, lines 128-143): on any decode or engine
failure return the empty string; on success return the stripped engine
output. -/
def ocr_tesseract (w : OcrWorld) (file_bytes : List Nat) : List Char :=
  match w.tessResp file_bytes with
  | none => []
  | some t => pyStrip t

/-- Result of `ler_redacao`, instrumented with how many times each
pipeline stage ran: the Normalizer (`preprocess_image_for_ocr`), the AI
engine (`ocr_gemini`) and the traditional engine (`ocr_tesseract`). -/
structure LerResult where
  texto : List Char
  preprocessCalls : Nat
  geminiCalls : Nat
  tessCalls : Nat
deriving DecidableEq

/-- The uploaded document: payload bytes (the result of
`await arquivo.read()`) and the declared content type (`none` models a
missing `content_type` attribute). -/
structure Arquivo where
  file_bytes : List Nat
  content_type : Option String

/-- `getattr(arquivo, "content_type", None) or "application/octet-stream"`
(`ocr.py`, line 162): a missing or empty content type falls back to
`application/octet-stream`. -/
def contentTypeOf (arquivo : Arquivo) : String :=
  match arquivo.content_type with
  | none => "application/octet-stream"
  | some ct => if ct = "" then "application/octet-stream" else ct

/-- The image branch of `ler_redacao` (`ocr.py`, lines 176-187):
normalize, try Gemini, accept its (already stripped) output when it is
truthy and its stripped length exceeds 50, otherwise fall back to
Tesseract, returning its output when truthy and `""` otherwise. -/
def imageFlow (w : OcrWorld) (file_bytes : List Nat) : LerResult :=
  let processed := preprocess_image_for_ocr w.cv file_bytes
  let texto := ocr_gemini w processed "image/png"
  if !texto.isEmpty && decide (50 < (pyStrip texto).length) then
    { texto := texto, preprocessCalls := 1, geminiCalls := 1, tessCalls := 0 }
  else
    let texto_fallback := ocr_tesseract w processed
    if !texto_fallback.isEmpty then
      { texto := texto_fallback, preprocessCalls := 1, geminiCalls := 1,
        tessCalls := 1 }
    else
      { texto := [], preprocessCalls := 1, geminiCalls := 1, tessCalls := 1 }

/-- `ler_redacao` (`ocr.py`, lines 145-189), the Fallback Orchestrator:
empty payload yields `""`; a PDF with native text yields the stripped
newline-join of its pages' text; a PDF without native text is rendered
and follows the image branch; JPEG/PNG follow the image branch; any
other content type yields `""`. -/
def ler_redacao (w : OcrWorld) (arquivo : Arquivo) : LerResult :=
  if arquivo.file_bytes.isEmpty then
    { texto := [], preprocessCalls := 0, geminiCalls := 0, tessCalls := 0 }
  else
    let content_type := contentTypeOf arquivo
    if content_type = "application/pdf" then
      if pdf_possui_texto w arquivo.file_bytes then
        { texto := pyStrip (List.intercalate ['\n']
            (w.pdfPages arquivo.file_bytes)),
          preprocessCalls := 0, geminiCalls := 0, tessCalls := 0 }
      else imageFlow w (w.renderPdf arquivo.file_bytes)
    else if content_type = "image/jpeg" ∨ content_type = "image/png" then
      imageFlow w arquivo.file_bytes
    else
      { texto := [], preprocessCalls := 0, geminiCalls := 0, tessCalls := 0 }

/-!
### The comparative analysis of `corretor.py`
-/

/-- A scoring-result dictionary as read by `gerar_analise_comparativa`:
for each competency key the value of its `"nota"` field (`none` models
the competency or its `"nota"` being missing or null), and the value of
`"nota_total"` (`none` likewise). -/
structure Avaliacao where
  competencias : List (String × Option Int)
  nota_total : Option Int

/-- `av.get("competencias", {}).get(c, {}).get("nota", 0) or 0`
(`corretor.py`, lines 249-250): a missing competency, a missing or null
nota, and a zero nota all collapse to `0`. -/
def getNota (av : Avaliacao) (c : String) : Int :=
  ((av.competencias.lookup c).getD none).getD 0

/-- One entry of `deltas_competencias` (`corretor.py`, lines 251-255). -/
structure Delta where
  nota_original : Int
  nota_corrigida : Int
  ganho : Int
deriving DecidableEq

/-- The dictionary returned by `gerar_analise_comparativa`
(`corretor.py`, lines 268-274). -/
structure Analise where
  nota_total_original : Int
  nota_total_corrigida : Int
  ganho_total : Int
  deltas_competencias : List (String × Delta)
  analise_textual : List Char

/-- Python `str(n)` for an integer. -/
def pyStrOfInt (n : Int) : List Char := (toString n).data

/-- The competency keys iterated by `gerar_analise_comparativa`
(`corretor.py`, line 245). -/
def comps5 : List String := ["comp1", "comp2", "comp3", "comp4", "comp5"]

/-- `gerar_analise_comparativa` (`corretor.py`, lines 232-274): per-
competency deltas (`ganho` = corrected minus original), total delta,
and a summary sentence. -/
def gerar_analise_comparativa (av_original av_corrigida : Avaliacao) :
    Analise :=
  let deltas_competencias := comps5.map (fun c =>
    let nota_orig := getNota av_original c
    let nota_corr := getNota av_corrigida c
    (c, { nota_original := nota_orig, nota_corrigida := nota_corr,
          ganho := nota_corr - nota_orig : Delta }))
  let nota_total_original := av_original.nota_total.getD 0
  let nota_total_corrigida := av_corrigida.nota_total.getD 0
  let ganho_total := nota_total_corrigida - nota_total_original
  { nota_total_original := nota_total_original
    nota_total_corrigida := nota_total_corrigida
    ganho_total := ganho_total
    deltas_competencias := deltas_competencias
    analise_textual :=
      strL "A nota total do texto original foi " ++
      pyStrOfInt nota_total_original ++
      strL ", enquanto a nota estimada para o texto gramaticalmente corrigido foi " ++
      pyStrOfInt nota_total_corrigida ++
      strL ", resultando em um ganho de " ++ pyStrOfInt ganho_total ++
      strL " pontos. Observe principalmente as competências em que o ganho foi maior para orientar seus estudos." }

/-!
### Helper lemmas about `pyStrip`
-/

theorem dropWhile_eq_self_of_head {α : Type} {p : α → Bool} {l : List α}
    (h : ∀ c, l.head? = some c → p c = false) : l.dropWhile p = l := by
  cases l with
  | nil => rfl
  | cons a l' =>
      have := h a rfl
      simp [List.dropWhile_cons, this]

theorem head_dropWhile_false {α : Type} (p : α → Bool) :
    ∀ (l : List α) (c : α), (l.dropWhile p).head? = some c → p c = false := by
  intro l
  induction l with
  | nil => intro c h; simp at h
  | cons a l' ih =>
      intro c h
      by_cases hp : p a
      · rw [List.dropWhile_cons, if_pos hp] at h
        exact ih c h
      · rw [List.dropWhile_cons, if_neg hp] at h
        simp at h
        subst h
        exact Bool.of_not_eq_true hp

theorem getLast?_dropWhile {α : Type} (p : α → Bool) :
    ∀ l : List α, l.dropWhile p ≠ [] → (l.dropWhile p).getLast? = l.getLast? := by
  intro l
  induction l with
  | nil => intro h; simp at h
  | cons a l' ih =>
      intro h
      by_cases hp : p a
      · rw [List.dropWhile_cons, if_pos hp] at h ⊢
        have hne : l' ≠ [] := by
          intro he; rw [he] at h; simp at h
        rw [ih h]
        cases l' with
        | nil => exact absurd rfl hne
        | cons b l'' => simp [List.getLast?_cons_cons]
      · rw [List.dropWhile_cons, if_neg hp]

theorem getLast?_reverse' {α : Type} (l : List α) :
    l.reverse.getLast? = l.head? := by
  rw [← List.head?_reverse, List.reverse_reverse]

theorem mem_of_head?_eq {α : Type} {l : List α} {c : α}
    (h : l.head? = some c) : c ∈ l := by
  cases l with
  | nil => simp at h
  | cons a l' =>
      simp at h
      subst h
      exact List.mem_cons_self _ _

theorem pyStrip_eq_self {l : List Char}
    (h1 : ∀ c, l.head? = some c → pyIsSpace c = false)
    (h2 : ∀ c, l.getLast? = some c → pyIsSpace c = false) : pyStrip l = l := by
  unfold pyStrip
  rw [dropWhile_eq_self_of_head h1]
  rw [dropWhile_eq_self_of_head (fun c hc => h2 c (by rwa [List.head?_reverse] at hc))]
  exact l.reverse_reverse

theorem pyStrip_head (l : List Char) :
    ∀ c, (pyStrip l).head? = some c → pyIsSpace c = false := by
  intro c h
  unfold pyStrip at h
  rw [List.head?_reverse] at h
  set A := l.dropWhile pyIsSpace with hA
  have hne : A.reverse.dropWhile pyIsSpace ≠ [] := by
    intro he; rw [he] at h; simp at h
  rw [getLast?_dropWhile _ _ hne, getLast?_reverse'] at h
  exact head_dropWhile_false pyIsSpace l c h

theorem pyStrip_getLast (l : List Char) :
    ∀ c, (pyStrip l).getLast? = some c → pyIsSpace c = false := by
  intro c h
  unfold pyStrip at h
  rw [getLast?_reverse'] at h
  exact head_dropWhile_false pyIsSpace _ c h

theorem pyStrip_idem (l : List Char) : pyStrip (pyStrip l) = pyStrip l :=
  pyStrip_eq_self (pyStrip_head l) (pyStrip_getLast l)

/-!
### Helper lemmas about the noise-filter pipeline
-/

theorem splitlinesGo_cons_bd {c : Char} (hc : isLineBoundary c = true)
    (acc s : List Char) :
    splitlinesGo acc (c :: s) = acc.reverse :: splitlinesGo [] s := by
  simp [splitlinesGo, hc]

theorem splitlinesGo_cons_nb {c : Char} (hc : isLineBoundary c = false)
    (acc s : List Char) :
    splitlinesGo acc (c :: s) = splitlinesGo (c :: acc) s := by
  simp [splitlinesGo, hc]

theorem collapseGo_cons_sp_true {d : Char} (hd : isSpTab d = true)
    (l' : List Char) : collapseGo true (d :: l') = collapseGo true l' := by
  simp [collapseGo, hd]

theorem collapseGo_cons_sp_false {d : Char} (hd : isSpTab d = true)
    (l' : List Char) :
    collapseGo false (d :: l') = ' ' :: collapseGo true l' := by
  simp [collapseGo, hd]

theorem collapseGo_cons_nonsp {d : Char} (hd : isSpTab d = false)
    (b : Bool) (l' : List Char) :
    collapseGo b (d :: l') = d :: collapseGo false l' := by
  simp [collapseGo, hd]

theorem splitNlGo_cons_nl (acc r : List Char) :
    splitNlGo acc ('\n' :: r) = acc.reverse :: splitNlGo [] r := by
  simp [splitNlGo]

theorem splitNlGo_cons_other {c : Char} (hc : (c == '\n') = false)
    (acc r : List Char) :
    splitNlGo acc (c :: r) = splitNlGo (c :: acc) r := by
  simp [splitNlGo, hc]

theorem pySplitGo_cons_sp {c : Char} (hc : pyIsSpace c = true)
    (acc r : List Char) :
    pySplitGo acc (c :: r) =
      if acc.isEmpty then pySplitGo [] r
      else acc.reverse :: pySplitGo [] r := by
  simp [pySplitGo, hc]

theorem pySplitGo_cons_nonsp {c : Char} (hc : pyIsSpace c = false)
    (acc r : List Char) :
    pySplitGo acc (c :: r) = pySplitGo (c :: acc) r := by
  simp [pySplitGo, hc]

theorem splitlinesGo_no_boundary :
    ∀ (s acc : List Char), (∀ c ∈ acc, isLineBoundary c = false) →
      ∀ l ∈ splitlinesGo acc s, ∀ c ∈ l, isLineBoundary c = false := by
  intro s
  induction s with
  | nil =>
      intro acc hacc l hl c hc
      unfold splitlinesGo at hl
      by_cases he : acc.isEmpty
      · simp [he] at hl
      · simp [he] at hl
        subst hl
        exact hacc c (by simpa using hc)
  | cons d s' ih =>
      intro acc hacc l hl c hc
      unfold splitlinesGo at hl
      by_cases hd : isLineBoundary d = true
      · rw [if_pos hd] at hl
        rcases List.mem_cons.mp hl with rfl | hl'
        · exact hacc c (by simpa using hc)
        · exact ih [] (by simp) l hl' c hc
      · rw [if_neg hd] at hl
        refine ih (d :: acc) ?_ l hl c hc
        intro x hx
        rcases List.mem_cons.mp hx with rfl | hx'
        · simpa using hd
        · exact hacc x hx'

theorem mem_pyStrip {l : List Char} {c : Char} (h : c ∈ pyStrip l) : c ∈ l := by
  unfold pyStrip at h
  rw [List.mem_reverse] at h
  have h1 : c ∈ (l.dropWhile pyIsSpace).reverse :=
    (List.dropWhile_sublist _).mem h
  rw [List.mem_reverse] at h1
  exact (List.dropWhile_sublist _).mem h1

theorem linhasOf_no_boundary (t : List Char) :
    ∀ l ∈ linhasOf t, ∀ c ∈ l, isLineBoundary c = false := by
  intro l hl c hc
  unfold linhasOf pySplitlines at hl
  rcases List.mem_map.mp hl with ⟨l0, hl0, rfl⟩
  exact splitlinesGo_no_boundary _ [] (by simp) l0 hl0 c (mem_pyStrip hc)

theorem linhasLimpaOf_no_boundary (t : List Char) :
    ∀ l ∈ linhasLimpaOf t, ∀ c ∈ l, isLineBoundary c = false := by
  intro l hl
  unfold linhasLimpaOf at hl
  exact linhasOf_no_boundary t l (List.mem_of_mem_filter hl)

theorem no_boundary_no_nl {l : List Char}
    (h : ∀ c ∈ l, isLineBoundary c = false) : ∀ c ∈ l, ¬c = '\n' := by
  intro c hc he
  subst he
  have := h '\n' hc
  simp [isLineBoundary] at this

theorem collapseGo_append_nl :
    ∀ (a : List Char) (b : Bool) (r : List Char),
      collapseGo b (a ++ '\n' :: r) =
        collapseGo b a ++ '\n' :: collapseGo false r := by
  intro a
  have hnl : isSpTab '\n' = false := by decide
  induction a with
  | nil =>
      intro b r
      rw [List.nil_append, collapseGo_cons_nonsp hnl]
      rfl
  | cons c a' ih =>
      intro b r
      rw [List.cons_append]
      by_cases hc : isSpTab c = true
      · cases b with
        | true => rw [collapseGo_cons_sp_true hc, collapseGo_cons_sp_true hc, ih]
        | false =>
            rw [collapseGo_cons_sp_false hc, collapseGo_cons_sp_false hc, ih]
            rfl
      · rw [Bool.not_eq_true] at hc
        rw [collapseGo_cons_nonsp hc, collapseGo_cons_nonsp hc, ih]
        rfl

theorem mem_collapseGo :
    ∀ (l : List Char) (b : Bool) (c : Char),
      c ∈ collapseGo b l → c = ' ' ∨ c ∈ l := by
  intro l
  induction l with
  | nil => intro b c h; simp [collapseGo] at h
  | cons d l' ih =>
      intro b c h
      by_cases hd : isSpTab d = true
      · cases b with
        | true =>
            rw [collapseGo_cons_sp_true hd] at h
            rcases ih true c h with h' | h'
            · exact Or.inl h'
            · exact Or.inr (List.mem_cons_of_mem _ h')
        | false =>
            rw [collapseGo_cons_sp_false hd] at h
            rcases List.mem_cons.mp h with rfl | h'
            · exact Or.inl rfl
            · rcases ih true c h' with h'' | h''
              · exact Or.inl h''
              · exact Or.inr (List.mem_cons_of_mem _ h'')
      · rw [Bool.not_eq_true] at hd
        rw [collapseGo_cons_nonsp hd] at h
        rcases List.mem_cons.mp h with rfl | h'
        · exact Or.inr (List.mem_cons_self _ _)
        · rcases ih false c h' with h'' | h''
          · exact Or.inl h''
          · exact Or.inr (List.mem_cons_of_mem _ h'')

theorem collapse_intercalate :
    ∀ L : List (List Char), ¬L = [] →
      collapseSpaces (List.intercalate ['\n'] L) =
        List.intercalate ['\n'] (L.map collapseSpaces) := by
  intro L
  induction L with
  | nil => intro h; exact absurd rfl h
  | cons l L' ih =>
      intro _
      cases L' with
      | nil => simp [List.intercalate]
      | cons m L'' =>
          have h1 : List.intercalate ['\n'] (l :: m :: L'') =
              l ++ '\n' :: List.intercalate ['\n'] (m :: L'') := by
            simp [List.intercalate, List.intersperse]
          have h3 : collapseSpaces
              (l ++ '\n' :: List.intercalate ['\n'] (m :: L'')) =
                collapseSpaces l ++ '\n' ::
                  collapseSpaces (List.intercalate ['\n'] (m :: L'')) :=
            collapseGo_append_nl l false _
          have h2 : List.intercalate ['\n']
              ((l :: m :: L'').map collapseSpaces) =
                collapseSpaces l ++ '\n' ::
                  List.intercalate ['\n'] ((m :: L'').map collapseSpaces) := by
            rw [List.map_cons]
            simp [List.intercalate, List.intersperse]
          rw [h1, h3, ih (by simp), h2]

theorem splitNlGo_append :
    ∀ (l : List Char), (∀ c ∈ l, ¬c = '\n') → ∀ (acc r : List Char),
      splitNlGo acc (l ++ '\n' :: r) =
        (acc.reverse ++ l) :: splitNlGo [] r := by
  intro l
  induction l with
  | nil =>
      intro _ acc r
      rw [List.nil_append, splitNlGo_cons_nl]
      simp
  | cons c l' ih =>
      intro h acc r
      have hc : (c == '\n') = false := by
        have := h c (List.mem_cons_self _ _)
        simpa using this
      rw [List.cons_append, splitNlGo_cons_other hc,
        ih (fun x hx => h x (List.mem_cons_of_mem _ hx)) (c :: acc) r]
      simp

theorem splitNlGo_last :
    ∀ (l : List Char), (∀ c ∈ l, ¬c = '\n') → ∀ acc : List Char,
      splitNlGo acc l = [acc.reverse ++ l] := by
  intro l
  induction l with
  | nil => intro _ acc; simp [splitNlGo]
  | cons c l' ih =>
      intro h acc
      have hc : (c == '\n') = false := by
        have := h c (List.mem_cons_self _ _)
        simpa using this
      rw [splitNlGo_cons_other hc,
        ih (fun x hx => h x (List.mem_cons_of_mem _ hx)) (c :: acc)]
      simp

theorem splitNl_intercalate :
    ∀ L : List (List Char), ¬L = [] →
      (∀ l ∈ L, ∀ c ∈ l, ¬c = '\n') →
      splitNl (List.intercalate ['\n'] L) = L := by
  intro L
  induction L with
  | nil => intro h; exact absurd rfl h
  | cons l L' ih =>
      intro _ h
      cases L' with
      | nil =>
          have hl := h l (List.mem_cons_self _ _)
          have he : List.intercalate ['\n'] [l] = l := by
            simp [List.intercalate]
          rw [he]
          unfold splitNl
          rw [splitNlGo_last l hl []]
          simp
      | cons m L'' =>
          have h1 : List.intercalate ['\n'] (l :: m :: L'') =
              l ++ '\n' :: List.intercalate ['\n'] (m :: L'') := by
            simp [List.intercalate, List.intersperse]
          unfold splitNl
          rw [h1, splitNlGo_append l (h l (List.mem_cons_self _ _)) []]
          have h2 := ih (by simp) (fun x hx => h x (List.mem_cons_of_mem _ hx))
          unfold splitNl at h2
          rw [h2]
          simp

theorem filter_keep_empty_count :
    ∀ L : List (List Char),
      ((L.filter (fun l => !dropLine l)).filter List.isEmpty).length =
        (L.filter List.isEmpty).length := by
  intro L
  induction L with
  | nil => rfl
  | cons l L' ih =>
      by_cases he : l.isEmpty = true
      · have hl : l = [] := List.isEmpty_iff.mp he
        subst hl
        have h1 : List.filter (fun x => !dropLine x) ([] :: L') =
            [] :: List.filter (fun x => !dropLine x) L' :=
          List.filter_cons_of_pos (by decide)
        have h2 : List.filter List.isEmpty
            (([] : List Char) :: List.filter (fun x => !dropLine x) L') =
              [] :: List.filter List.isEmpty
                (List.filter (fun x => !dropLine x) L') :=
          List.filter_cons_of_pos (by decide)
        have h3 : List.filter List.isEmpty (([] : List Char) :: L') =
            [] :: List.filter List.isEmpty L' :=
          List.filter_cons_of_pos (by decide)
        rw [h1, h2, h3]
        simpa using ih
      · by_cases hd : dropLine l = true
        · have h1 : List.filter (fun x => !dropLine x) (l :: L') =
              List.filter (fun x => !dropLine x) L' :=
            List.filter_cons_of_neg (by simp [hd])
          have h3 : List.filter List.isEmpty (l :: L') =
              List.filter List.isEmpty L' :=
            List.filter_cons_of_neg (by simpa using he)
          rw [h1, h3]
          exact ih
        · have h1 : List.filter (fun x => !dropLine x) (l :: L') =
              l :: List.filter (fun x => !dropLine x) L' :=
            List.filter_cons_of_pos (by simp [Bool.not_eq_true] at hd ⊢; exact hd)
          have h2 : List.filter List.isEmpty
              (l :: List.filter (fun x => !dropLine x) L') =
                List.filter List.isEmpty
                  (List.filter (fun x => !dropLine x) L') :=
            List.filter_cons_of_neg (by simpa using he)
          have h3 : List.filter List.isEmpty (l :: L') =
              List.filter List.isEmpty L' :=
            List.filter_cons_of_neg (by simpa using he)
          rw [h1, h2, h3]
          exact ih

theorem count_empty_le_map (f : List Char → List Char) (hf : f [] = [])
    (L : List (List Char)) :
    (L.filter List.isEmpty).length ≤
      ((L.map f).filter List.isEmpty).length := by
  induction L with
  | nil => exact Nat.le_refl 0
  | cons l L' ih =>
      rw [List.map_cons]
      by_cases he : l.isEmpty = true
      · have hl : l = [] := List.isEmpty_iff.mp he
        subst hl
        rw [hf]
        have h1 : List.filter List.isEmpty (([] : List Char) :: L') =
            [] :: List.filter List.isEmpty L' :=
          List.filter_cons_of_pos (by decide)
        have h2 : List.filter List.isEmpty (([] : List Char) :: L'.map f) =
            [] :: List.filter List.isEmpty (L'.map f) :=
          List.filter_cons_of_pos (by decide)
        rw [h1, h2]
        simpa using ih
      · have h3 : List.filter List.isEmpty (l :: L') =
            List.filter List.isEmpty L' :=
          List.filter_cons_of_neg (by simpa using he)
        rw [h3]
        by_cases hfe : (f l).isEmpty = true
        · have h4 : List.filter List.isEmpty (f l :: L'.map f) =
              f l :: List.filter List.isEmpty (L'.map f) :=
            List.filter_cons_of_pos hfe
          rw [h4]
          exact Nat.le_succ_of_le ih
        · have h4 : List.filter List.isEmpty (f l :: L'.map f) =
              List.filter List.isEmpty (L'.map f) :=
            List.filter_cons_of_neg (by simpa using hfe)
          rw [h4]
          exact ih

theorem paragrafosOf_empty_case (t : List Char) (h : linhasLimpaOf t = []) :
    paragrafosOf t = [[]] := by
  unfold paragrafosOf texto2Of
  rw [h]
  rfl

theorem paragrafosOf_nonempty (t : List Char) (h : ¬linhasLimpaOf t = []) :
    paragrafosOf t =
      (linhasLimpaOf t).map (fun l => limparParagrafo (collapseSpaces l)) := by
  have hmapne : ¬(linhasLimpaOf t).map collapseSpaces = [] := by
    simpa using h
  have hnl : ∀ l ∈ (linhasLimpaOf t).map collapseSpaces,
      ∀ c ∈ l, ¬c = '\n' := by
    intro l hl c hc
    rcases List.mem_map.mp hl with ⟨l0, hl0, rfl⟩
    rcases mem_collapseGo l0 false c hc with rfl | hmem
    · decide
    · exact no_boundary_no_nl (linhasLimpaOf_no_boundary t l0 hl0) c hmem
  unfold paragrafosOf texto2Of
  rw [collapse_intercalate _ h, splitNl_intercalate _ hmapne hnl,
    List.map_map]
  rfl

/-- C4: the Noise Filter's line-drop step removes a line exactly when
its alphabetic-character count is zero and its count of characters that
are neither alphanumeric nor whitespace exceeds 3; in particular
`"####!!"` is dropped and `"a####!!"` is kept. -/
theorem c4_line_drop_rule :
    (∀ linha : List Char,
        dropLine linha = true ↔
          (countLetras linha = 0 ∧ 3 < countSimbolos linha)) ∧
    dropLine (strL "####!!") = true ∧ dropLine (strL "a####!!") = false := by
  refine ⟨fun linha => ?_, by decide, by decide⟩
  unfold dropLine
  constructor
  · intro h
    simp only [Bool.and_eq_true, decide_eq_true_eq] at h
    exact ⟨h.2.1, h.2.2⟩
  · rintro ⟨h1, h2⟩
    have hlen : countSimbolos linha ≤ linha.length :=
      List.length_filter_le _ _
    simp only [Bool.and_eq_true, decide_eq_true_eq]
    exact ⟨by omega, h1, h2⟩

/-- Witness for C4: the line-drop rule applied at `"####!!"`. -/
theorem c4_line_drop_rule_witness :
    countLetras (strL "####!!") = 0 ∧ 3 < countSimbolos (strL "####!!") :=
  (c4_line_drop_rule.1 (strL "####!!")).mp (by decide)

/-- C5: the token filter discards a token exactly when its length is at
least 4 and it contains no vowel (including accented vowels); shorter
tokens are never discarded; `"xyzw"` is dropped while `"xyz"` and
`"casa"` are kept. -/
theorem c5_token_filter :
    (∀ p : List Char,
        filtro_palavra p = false ↔
          (4 ≤ p.length ∧ ∀ c ∈ p, vowels.contains c = false)) ∧
    (∀ p : List Char, p.length < 4 → filtro_palavra p = true) ∧
    filtro_palavra (strL "xyzw") = false ∧
    filtro_palavra (strL "xyz") = true ∧
    filtro_palavra (strL "casa") = true := by
  have key : ∀ p : List Char,
      filtro_palavra p = false ↔
        (4 ≤ p.length ∧ ∀ c ∈ p, vowels.contains c = false) := by
    intro p
    unfold filtro_palavra
    constructor
    · intro h
      simp only [Bool.not_eq_false', Bool.and_eq_true, decide_eq_true_eq,
        Bool.not_eq_true', List.any_eq_false, Bool.not_eq_true] at h
      exact h
    · intro h
      simp only [Bool.not_eq_false', Bool.and_eq_true, decide_eq_true_eq,
        Bool.not_eq_true', List.any_eq_false, Bool.not_eq_true]
      exact h
  refine ⟨key, fun p hp => ?_, by decide, by decide, by decide⟩
  by_contra h
  have := (key p).mp (Bool.not_eq_true _ ▸ Bool.of_not_eq_true h)
  omega

/-- Witness for C5: the token-filter rule applied at `"xyzw"` and the
never-discard-short rule applied at `"xyz"`. -/
theorem c5_token_filter_witness :
    (4 ≤ (strL "xyzw").length ∧ ∀ c ∈ strL "xyzw", vowels.contains c = false) ∧
    filtro_palavra (strL "xyz") = true :=
  ⟨(c5_token_filter.1 (strL "xyzw")).mp (by decide),
   c5_token_filter.2.1 (strL "xyz") (by decide)⟩

/-- Counterexample to C7 as stated: the empty byte string cannot be
decoded as an image, yet `cv2.imdecode` raises `cv2.error` on it (its
`!buf.empty()` assertion) and neither Normalizer variant has a handler,
so both propagate the exception instead of returning the input bytes
unchanged. -/
theorem c7_counterexample :
    preprocess_image_for_ocr_exc
        ⟨fun _ => none, id, id, fun _ => none⟩ [] = Except.error () ∧
    preprocess_image_bytes_exc
        ⟨fun _ => none, id, id, fun _ => none⟩ [] = Except.error () ∧
    ¬preprocess_image_for_ocr_exc
        ⟨fun _ => none, id, id, fun _ => none⟩ [] = Except.ok [] ∧
    ¬preprocess_image_bytes_exc
        ⟨fun _ => none, id, id, fun _ => none⟩ [] = Except.ok [] := by
  refine ⟨rfl, rfl, ?_, ?_⟩ <;> intro h <;> exact Except.noConfusion h

/-- C7 amended: for every nonempty byte string that cannot be decoded
as an image, each Image Normalizer variant returns its input bytes
unchanged byte-for-byte without raising; on the empty byte string the
`cv2.error` raised by `cv2.imdecode` propagates out of both
variants. -/
theorem c7_normalizer_passthrough :
    ∀ (v : Cv2Exc) (file_bytes : List Nat),
      (¬file_bytes = [] → v.imdecodeNonempty file_bytes = none →
        preprocess_image_for_ocr_exc v file_bytes =
            Except.ok file_bytes ∧
        preprocess_image_bytes_exc v file_bytes =
            Except.ok file_bytes) ∧
      (preprocess_image_for_ocr_exc v [] = Except.error () ∧
       preprocess_image_bytes_exc v [] = Except.error ()) := by
  intro v b
  refine ⟨fun hb h => ?_, rfl, rfl⟩
  have hbe : b.isEmpty = false := by
    cases hA : b with
    | nil => exact absurd hA hb
    | cons c l => rfl
  constructor
  · simp [preprocess_image_for_ocr_exc, cv2_imdecode, hbe, h]
  · simp [preprocess_image_bytes_exc, cv2_imdecode, hbe, h]

/-- Witness for C7: a decoder failing on every nonempty buffer, applied
to the byte string `[0, 1, 2]`. -/
theorem c7_normalizer_passthrough_witness :
    preprocess_image_for_ocr_exc
        ⟨fun _ => none, id, id, fun _ => none⟩ [0, 1, 2] =
          Except.ok [0, 1, 2] ∧
    preprocess_image_bytes_exc
        ⟨fun _ => none, id, id, fun _ => none⟩ [0, 1, 2] =
          Except.ok [0, 1, 2] :=
  (c7_normalizer_passthrough
      ⟨fun _ => none, id, id, fun _ => none⟩ [0, 1, 2]).1 (by decide) rfl

/-- C9: the comparative analysis emits per-competency deltas equal to
corrected-minus-original, an aggregate delta equal to the difference of
the totals, and treats a missing competency, nota or total as `0`. -/
theorem c9_analise_comparativa :
    (∀ av_original av_corrigida : Avaliacao,
        (gerar_analise_comparativa av_original av_corrigida).ganho_total =
          av_corrigida.nota_total.getD 0 - av_original.nota_total.getD 0 ∧
        ∀ c ∈ comps5,
          (gerar_analise_comparativa av_original
              av_corrigida).deltas_competencias.lookup c =
            some { nota_original := getNota av_original c,
                   nota_corrigida := getNota av_corrigida c,
                   ganho :=
                     getNota av_corrigida c - getNota av_original c }) ∧
    (∀ (av : Avaliacao) (c : String),
        av.competencias.lookup c = none → getNota av c = 0) := by
  refine ⟨fun avO avC => ⟨rfl, ?_⟩, fun av c h => by simp [getNota, h]⟩
  intro c hc
  simp only [comps5, List.mem_cons, List.not_mem_nil, or_false] at hc
  rcases hc with rfl | rfl | rfl | rfl | rfl <;> rfl

/-- Witness for C9: original total 480 and corrected total 560 yield an
aggregate delta of 80, and a dictionary with no competency entry has
nota 0. -/
theorem c9_analise_comparativa_witness :
    (gerar_analise_comparativa
        { competencias := [("comp1", some 120)], nota_total := some 480 }
        { competencias := [("comp1", some 160)], nota_total := some 560 }
      ).ganho_total = 80 ∧
    getNota { competencias := [], nota_total := some 480 } "comp3" = 0 :=
  ⟨((c9_analise_comparativa.1
      { competencias := [("comp1", some 120)], nota_total := some 480 }
      { competencias := [("comp1", some 160)], nota_total := some 560 }).1).trans
        (by decide),
   c9_analise_comparativa.2
      { competencias := [], nota_total := some 480 } "comp3" rfl⟩

/-- The resolved content type avoids a string `s` whenever the declared
attribute avoids `some s` and `s` is not the fallback
`application/octet-stream`. -/
theorem contentTypeOf_ne {a : Arquivo} {s : String}
    (hs : ¬a.content_type = some s)
    (h1 : ¬s = "application/octet-stream") : ¬contentTypeOf a = s := by
  cases hc : a.content_type with
  | none =>
      have hred : contentTypeOf a = "application/octet-stream" := by
        unfold contentTypeOf; rw [hc]
      rw [hred]; intro hh; exact h1 hh.symm
  | some ct =>
      have hred : contentTypeOf a =
          if ct = "" then "application/octet-stream" else ct := by
        unfold contentTypeOf; rw [hc]
      rw [hred]
      by_cases he : ct = ""
      · rw [if_pos he]; intro hh; exact h1 hh.symm
      · rw [if_neg he]; intro hh; exact hs (by rw [hc, hh])

/-- C6: an empty payload or a declared content type other than PDF,
JPEG or PNG makes the pipeline return the empty string immediately,
with the Normalizer and both engines never invoked. -/
theorem c6_unsupported_input :
    ∀ (w : OcrWorld) (arquivo : Arquivo),
      (arquivo.file_bytes = [] ∨
        (¬arquivo.content_type = some "application/pdf" ∧
         ¬arquivo.content_type = some "image/jpeg" ∧
         ¬arquivo.content_type = some "image/png")) →
      ler_redacao w arquivo =
        { texto := [], preprocessCalls := 0, geminiCalls := 0,
          tessCalls := 0 } := by
  intro w a h
  rcases h with h | ⟨h1, h2, h3⟩
  · simp [ler_redacao, h]
  · have hpdf := contentTypeOf_ne h1 (by decide)
    have hjpg := contentTypeOf_ne h2 (by decide)
    have hpng := contentTypeOf_ne h3 (by decide)
    by_cases hb : a.file_bytes.isEmpty
    · simp [ler_redacao, hb]
    · simp [ler_redacao, hb, hpdf, hjpg, hpng]

/-- Witness for C6: a nonempty `text/plain` upload yields the empty
result with no pipeline stage invoked. -/
theorem c6_unsupported_input_witness :
    ler_redacao
      { cv := ⟨fun _ => none, id, id, fun _ => none⟩,
        pdfPages := fun _ => [], renderPdf := id,
        geminiResp := fun _ _ => none, tessResp := fun _ => none }
      { file_bytes := [7], content_type := some "text/plain" } =
      { texto := [], preprocessCalls := 0, geminiCalls := 0,
        tessCalls := 0 } :=
  c6_unsupported_input _ _ (Or.inr ⟨by decide, by decide, by decide⟩)

/-- The AI engine's output is already stripped. -/
theorem ocr_gemini_stripped (w : OcrWorld) (b : List Nat) (m : String) :
    pyStrip (ocr_gemini w b m) = ocr_gemini w b m := by
  unfold ocr_gemini
  cases w.geminiResp b m with
  | none => rfl
  | some t => exact pyStrip_idem t

/-- The quality gate of the image branch: the AI output is accepted
exactly when its length exceeds 50, otherwise the traditional engine's
result is returned unconditionally, each engine running once. -/
theorem imageFlow_gate (w : OcrWorld) (b : List Nat) :
    (50 < (ocr_gemini w (preprocess_image_for_ocr w.cv b) "image/png").length →
      imageFlow w b =
        { texto := ocr_gemini w (preprocess_image_for_ocr w.cv b) "image/png",
          preprocessCalls := 1, geminiCalls := 1, tessCalls := 0 }) ∧
    ((ocr_gemini w (preprocess_image_for_ocr w.cv b) "image/png").length ≤ 50 →
      imageFlow w b =
        { texto := ocr_tesseract w (preprocess_image_for_ocr w.cv b),
          preprocessCalls := 1, geminiCalls := 1, tessCalls := 1 }) := by
  constructor
  · intro h
    have hne : (ocr_gemini w (preprocess_image_for_ocr w.cv b)
        "image/png").isEmpty = false := by
      cases hA : ocr_gemini w (preprocess_image_for_ocr w.cv b) "image/png" with
      | nil => rw [hA] at h; simp at h
      | cons c l => rfl
    unfold imageFlow
    dsimp only
    rw [ocr_gemini_stripped]
    simp [hne, h]
  · intro h
    have hgate : decide (50 < (ocr_gemini w (preprocess_image_for_ocr w.cv b)
        "image/png").length) = false := by
      simpa using h
    unfold imageFlow
    dsimp only
    rw [ocr_gemini_stripped, hgate]
    by_cases hfb : (ocr_tesseract w (preprocess_image_for_ocr w.cv b)).isEmpty
    · have : ocr_tesseract w (preprocess_image_for_ocr w.cv b) = [] :=
        List.isEmpty_iff.mp hfb
      simp [hfb, this]
    · simp [hfb]

/-- Under an image-path document (JPEG/PNG payload, or a PDF with no
extractable text, whose first page is rendered to `ib`), the
orchestrator runs the image branch on `ib`. -/
theorem ler_redacao_image (w : OcrWorld) (a : Arquivo) (ib : List Nat)
    (hb : ¬a.file_bytes = [])
    (h : (contentTypeOf a = "image/jpeg" ∨ contentTypeOf a = "image/png") ∧
           ib = a.file_bytes ∨
         contentTypeOf a = "application/pdf" ∧
           pdf_possui_texto w a.file_bytes = false ∧
           ib = w.renderPdf a.file_bytes) :
    ler_redacao w a = imageFlow w ib := by
  have hbe : a.file_bytes.isEmpty = false := by
    cases hA : a.file_bytes with
    | nil => exact absurd hA hb
    | cons c l => rfl
  unfold ler_redacao
  rcases h with ⟨hct | hct, rfl⟩ | ⟨hct, hpt, rfl⟩
  · simp [hbe, hct]
  · simp [hbe, hct]
  · simp [hbe, hct, hpt]

/-- C1: for an image-path document, the orchestrator returns the AI
engine's (already trimmed) output exactly when its length exceeds 50;
otherwise it returns the traditional OCR engine's result
unconditionally, even when empty, and neither engine runs more than
once. -/
theorem c1_quality_gate :
    ∀ (w : OcrWorld) (arquivo : Arquivo) (ib : List Nat),
      ¬arquivo.file_bytes = [] →
      ((contentTypeOf arquivo = "image/jpeg" ∨
          contentTypeOf arquivo = "image/png") ∧ ib = arquivo.file_bytes ∨
        contentTypeOf arquivo = "application/pdf" ∧
          pdf_possui_texto w arquivo.file_bytes = false ∧
          ib = w.renderPdf arquivo.file_bytes) →
      ((50 < (ocr_gemini w (preprocess_image_for_ocr w.cv ib)
            "image/png").length →
          ler_redacao w arquivo =
            { texto :=
                ocr_gemini w (preprocess_image_for_ocr w.cv ib) "image/png",
              preprocessCalls := 1, geminiCalls := 1, tessCalls := 0 }) ∧
       ((ocr_gemini w (preprocess_image_for_ocr w.cv ib)
            "image/png").length ≤ 50 →
          ler_redacao w arquivo =
            { texto := ocr_tesseract w (preprocess_image_for_ocr w.cv ib),
              preprocessCalls := 1, geminiCalls := 1, tessCalls := 1 }) ∧
       (ler_redacao w arquivo).geminiCalls ≤ 1 ∧
       (ler_redacao w arquivo).tessCalls ≤ 1) := by
  intro w a ib hb h
  have him := ler_redacao_image w a ib hb h
  have gate := imageFlow_gate w ib
  refine ⟨fun hlen => him.trans (gate.1 hlen),
          fun hlen => him.trans (gate.2 hlen), ?_, ?_⟩ <;>
    rw [him] <;>
    rcases Nat.lt_or_ge 50 ((ocr_gemini w (preprocess_image_for_ocr w.cv ib)
      "image/png").length) with hl | hl
  · simp [gate.1 hl]
  · simp [gate.2 hl]
  · simp [gate.1 hl]
  · simp [gate.2 hl]

/-- Witness for C1: a PNG upload whose AI transcription has 60
characters is returned as-is, with the fallback engine never run. -/
theorem c1_quality_gate_witness :
    ler_redacao
      { cv := ⟨fun _ => none, id, id, fun _ => none⟩,
        pdfPages := fun _ => [], renderPdf := id,
        geminiResp := fun _ _ => some (List.replicate 60 'a'),
        tessResp := fun _ => none }
      { file_bytes := [5], content_type := some "image/png" } =
      { texto := List.replicate 60 'a',
        preprocessCalls := 1, geminiCalls := 1, tessCalls := 0 } :=
  ((c1_quality_gate
      { cv := ⟨fun _ => none, id, id, fun _ => none⟩,
        pdfPages := fun _ => [], renderPdf := id,
        geminiResp := fun _ _ => some (List.replicate 60 'a'),
        tessResp := fun _ => none }
      { file_bytes := [5], content_type := some "image/png" } [5]
      (by decide) (Or.inl ⟨Or.inr (by decide), rfl⟩)).1 (by decide)).trans
    (by decide)

/-- Counterexample to C3 as stated: a native-text PDF whose single
page's text is `"a\n"` satisfies every hypothesis of the claim, yet the
orchestrator's output is the stripped `"a"`, not the newline-join
`"a\n"` itself. -/
theorem c3_counterexample :
    pdf_possui_texto
        { cv := ⟨fun _ => none, id, id, fun _ => none⟩,
          pdfPages := fun _ => [strL "a\n"], renderPdf := id,
          geminiResp := fun _ _ => none, tessResp := fun _ => none }
        [0] = true ∧
    ¬(ler_redacao
        { cv := ⟨fun _ => none, id, id, fun _ => none⟩,
          pdfPages := fun _ => [strL "a\n"], renderPdf := id,
          geminiResp := fun _ _ => none, tessResp := fun _ => none }
        { file_bytes := [0], content_type := some "application/pdf" }).texto =
      List.intercalate ['\n']
        (OcrWorld.pdfPages
          { cv := ⟨fun _ => none, id, id, fun _ => none⟩,
            pdfPages := fun _ => [strL "a\n"], renderPdf := id,
            geminiResp := fun _ _ => none, tessResp := fun _ => none }
          [0]) := by
  constructor
  · decide
  · decide

/-- C3 amended: for a PDF with nonempty payload on which some page has
non-whitespace extractable text, the output is the page-ordered
newline-joined concatenation of the pages' text, trimmed of leading
and trailing whitespace, and no Normalizer or engine is invoked. -/
theorem c3_pdf_native_text (w : OcrWorld) (a : Arquivo)
    (hb : ¬a.file_bytes = [])
    (hct : a.content_type = some "application/pdf")
    (hpt : pdf_possui_texto w a.file_bytes = true) :
    ler_redacao w a =
      { texto := pyStrip (List.intercalate ['\n'] (w.pdfPages a.file_bytes)),
        preprocessCalls := 0, geminiCalls := 0, tessCalls := 0 } := by
  have hbe : a.file_bytes.isEmpty = false := by
    cases hA : a.file_bytes with
    | nil => exact absurd hA hb
    | cons c l => rfl
  unfold ler_redacao contentTypeOf
  rw [hct]
  simp [hbe, hpt]

/-- Witness for C3 amended: a two-page native PDF yields the stripped
newline-join of its pages. -/
theorem c3_pdf_native_text_witness :
    ler_redacao
      { cv := ⟨fun _ => none, id, id, fun _ => none⟩,
        pdfPages := fun _ => [strL "a\n", strL "b"], renderPdf := id,
        geminiResp := fun _ _ => none, tessResp := fun _ => none }
      { file_bytes := [0], content_type := some "application/pdf" } =
      { texto := strL "a\n\nb",
        preprocessCalls := 0, geminiCalls := 0, tessCalls := 0 } :=
  (c3_pdf_native_text
      { cv := ⟨fun _ => none, id, id, fun _ => none⟩,
        pdfPages := fun _ => [strL "a\n", strL "b"], renderPdf := id,
        geminiResp := fun _ _ => none, tessResp := fun _ => none }
      { file_bytes := [0], content_type := some "application/pdf" }
      (by decide) rfl (by decide)).trans (by decide)

/-- Counterexample to C8 as stated: a `ServerError` (5xx, e.g. 503) is
a service-level failure, but `except ClientError` at `ocr.py` line 121
does not catch it, so `ocr_gemini` propagates the exception instead of
returning the empty string. -/
theorem c8_counterexample :
    ocr_gemini_exc ⟨fun _ _ => GenaiOutcome.serverError⟩ [0] "image/png" =
        Except.error () ∧
    ¬ocr_gemini_exc ⟨fun _ _ => GenaiOutcome.serverError⟩ [0] "image/png" =
        Except.ok [] := by
  refine ⟨rfl, ?_⟩
  intro h
  exact Except.noConfusion h

/-- C8 amended: the AI engine catches exactly the `ClientError`
failures (rate limit, rejection) and returns the empty string for
them; on success it returns the service's text trimmed of leading and
trailing whitespace; a `ServerError` is not caught and propagates out
of the engine. -/
theorem c8_gemini_error_handling :
    ∀ (g : GenaiService) (b : List Nat) (m : String),
      (g.respond b m = GenaiOutcome.clientError →
        ocr_gemini_exc g b m = Except.ok []) ∧
      (g.respond b m = GenaiOutcome.serverError →
        ocr_gemini_exc g b m = Except.error ()) ∧
      (∀ t, g.respond b m = GenaiOutcome.ok t →
        ocr_gemini_exc g b m = Except.ok (pyStrip t)) := by
  intro g b m
  refine ⟨fun h => ?_, fun h => ?_, fun t h => ?_⟩ <;>
    simp [ocr_gemini_exc, h]

/-- Witness for C8: a rate-limited service (ClientError) yields the
empty string, and a successful `"  ola  "` response yields the trimmed
`"ola"`. -/
theorem c8_gemini_error_handling_witness :
    ocr_gemini_exc ⟨fun _ _ => GenaiOutcome.clientError⟩ [0] "image/png" =
        Except.ok [] ∧
    ocr_gemini_exc ⟨fun _ _ => GenaiOutcome.ok (strL "  ola  ")⟩ [0]
        "image/png" = Except.ok (strL "ola") :=
  ⟨(c8_gemini_error_handling ⟨fun _ _ => GenaiOutcome.clientError⟩ [0]
      "image/png").1 rfl,
   ((c8_gemini_error_handling ⟨fun _ _ => GenaiOutcome.ok (strL "  ola  ")⟩
      [0] "image/png").2.2 (strL "  ola  ") rfl).trans
     (congrArg Except.ok (by decide))⟩

/-- C10: the line-drop step never removes an empty line (its test only
fires on lines of positive length), so every line that is blank after
per-line trimming survives the line-drop, whitespace-collapse and
token-filter steps into the paragraph list; only the final whole-result
trim can remove blank lines. -/
theorem c10_empty_lines_preserved :
    dropLine [] = false ∧
    ∀ texto : List Char,
      ((linhasLimpaOf texto).filter List.isEmpty).length =
          ((linhasOf texto).filter List.isEmpty).length ∧
      ((linhasOf texto).filter List.isEmpty).length ≤
          ((paragrafosOf texto).filter List.isEmpty).length := by
  refine ⟨rfl, fun t => ?_⟩
  have h1 : ((linhasLimpaOf t).filter List.isEmpty).length =
      ((linhasOf t).filter List.isEmpty).length :=
    filter_keep_empty_count (linhasOf t)
  refine ⟨h1, ?_⟩
  by_cases h : linhasLimpaOf t = []
  · rw [paragrafosOf_empty_case t h, ← h1, h]
    simp
  · rw [paragrafosOf_nonempty t h, ← h1]
    exact count_empty_le_map _ rfl (linhasLimpaOf t)

/-- Witness for C10: the interior blank line of `"a\n\n\nb"` (which
trims to lines `a`, ``, ``, `b`) is still present in the paragraph
list. -/
theorem c10_empty_lines_preserved_witness :
    ((linhasOf (strL "a\n\n\nb")).filter List.isEmpty).length ≤
      ((paragrafosOf (strL "a\n\n\nb")).filter List.isEmpty).length :=
  (c10_empty_lines_preserved.2 (strL "a\n\n\nb")).2

/-!
### Helper lemmas towards Noise-Filter idempotence analysis (C2)
-/

theorem boundary_isSpace : ∀ c : Char, isLineBoundary c = true →
    pyIsSpace c = true := by
  intro c h
  simp only [isLineBoundary, Bool.or_eq_true, beq_iff_eq] at h
  rcases h with ((((((((h | h) | h) | h) | h) | h) | h) | h) | h) | h <;>
    subst h <;> decide

theorem sptab_isSpace : ∀ c : Char, isSpTab c = true → pyIsSpace c = true := by
  intro c h
  simp only [isSpTab, Bool.or_eq_true, beq_iff_eq] at h
  rcases h with h | h <;> subst h <;> decide

theorem joinCrlf_id : ∀ x : List Char, (∀ c ∈ x, ¬c = '\r') →
    joinCrlf x = x := by
  intro x
  induction x with
  | nil => intro _; rfl
  | cons c x' ih =>
      intro h
      cases x' with
      | nil => rfl
      | cons d rest =>
          have hc : (c == '\r') = false := by
            have := h c (List.mem_cons_self _ _)
            simpa using this
          unfold joinCrlf
          rw [hc]
          simp only [Bool.false_and, Bool.false_eq_true, if_false]
          rw [ih (fun y hy => h y (List.mem_cons_of_mem _ hy))]

theorem intercalate_cons₂ {x : Char} (l m : List Char)
    (L : List (List Char)) :
    List.intercalate [x] (l :: m :: L) =
      l ++ x :: List.intercalate [x] (m :: L) := by
  simp [List.intercalate, List.intersperse]

theorem intercalate_single {x : Char} (l : List Char) :
    List.intercalate [x] [l] = l := by
  simp [List.intercalate]

theorem mem_intercalate {x c : Char} :
    ∀ L : List (List Char), c ∈ List.intercalate [x] L →
      c = x ∨ ∃ l, l ∈ L ∧ c ∈ l := by
  intro L
  induction L with
  | nil => intro h; simp [List.intercalate] at h
  | cons l L' ih =>
      cases L' with
      | nil =>
          intro h
          rw [intercalate_single] at h
          exact Or.inr ⟨l, List.mem_cons_self _ _, h⟩
      | cons m L'' =>
          intro h
          rw [intercalate_cons₂] at h
          rcases List.mem_append.mp h with h1 | h2
          · exact Or.inr ⟨l, List.mem_cons_self _ _, h1⟩
          · rcases List.mem_cons.mp h2 with rfl | h3
            · exact Or.inl rfl
            · rcases ih h3 with h4 | ⟨l', hl', hc'⟩
              · exact Or.inl h4
              · exact Or.inr ⟨l', List.mem_cons_of_mem _ hl', hc'⟩

theorem splitlinesGo_append_nl :
    ∀ l : List Char, (∀ c ∈ l, isLineBoundary c = false) →
      ∀ (acc rest : List Char),
        splitlinesGo acc (l ++ '\n' :: rest) =
          (acc.reverse ++ l) :: splitlinesGo [] rest := by
  intro l
  induction l with
  | nil =>
      intro _ acc rest
      rw [List.nil_append, splitlinesGo_cons_bd (by decide)]
      simp
  | cons c l' ih =>
      intro h acc rest
      have hc : isLineBoundary c = false := h c (List.mem_cons_self _ _)
      rw [List.cons_append, splitlinesGo_cons_nb hc,
        ih (fun y hy => h y (List.mem_cons_of_mem _ hy)) (c :: acc) rest]
      simp

theorem splitlinesGo_last :
    ∀ l : List Char, (∀ c ∈ l, isLineBoundary c = false) →
      ∀ acc : List Char,
        splitlinesGo acc l =
          if (acc.reverse ++ l).isEmpty then [] else [acc.reverse ++ l] := by
  intro l
  induction l with
  | nil =>
      intro _ acc
      unfold splitlinesGo
      cases acc with
      | nil => simp
      | cons a as => simp
  | cons c l' ih =>
      intro h acc
      have hc : isLineBoundary c = false := h c (List.mem_cons_self _ _)
      rw [splitlinesGo_cons_nb hc,
        ih (fun y hy => h y (List.mem_cons_of_mem _ hy)) (c :: acc)]
      have he : (c :: acc).reverse ++ l' = acc.reverse ++ c :: l' := by simp
      rw [he]

theorem splitlinesGo_intercalate :
    ∀ Q : List (List Char), ¬Q = [] → ¬Q.getLast? = some [] →
      (∀ l ∈ Q, ∀ c ∈ l, isLineBoundary c = false) →
      splitlinesGo [] (List.intercalate ['\n'] Q) = Q := by
  intro Q
  induction Q with
  | nil => intro h; exact absurd rfl h
  | cons q Q' ih =>
      intro _ hlast h
      have hq : ∀ c ∈ q, isLineBoundary c = false :=
        h q (List.mem_cons_self _ _)
      cases Q' with
      | nil =>
          have hqne : ¬q = [] := by
            intro he
            exact hlast (by rw [he]; rfl)
          rw [intercalate_single, splitlinesGo_last q hq []]
          cases hq2 : q with
          | nil => exact absurd hq2 hqne
          | cons a as => simp
      | cons m Q'' =>
          have hlast' : ¬(m :: Q'').getLast? = some [] := by
            rw [List.getLast?_cons_cons] at hlast
            exact hlast
          rw [intercalate_cons₂, splitlinesGo_append_nl q hq [],
            ih (by simp) hlast'
              (fun l hl => h l (List.mem_cons_of_mem _ hl))]
          simp

theorem pySplitlines_intercalate (Q : List (List Char)) (h1 : ¬Q = [])
    (h2 : ¬Q.getLast? = some [])
    (h3 : ∀ l ∈ Q, ∀ c ∈ l, isLineBoundary c = false) :
    pySplitlines (List.intercalate ['\n'] Q) = Q := by
  have hr : ∀ c ∈ List.intercalate ['\n'] Q, ¬c = '\r' := by
    intro c hc he
    subst he
    rcases mem_intercalate Q hc with h | ⟨l, hl, hcl⟩
    · exact absurd h (by decide)
    · exact absurd (h3 l hl '\r' hcl) (by decide)
  unfold pySplitlines
  rw [joinCrlf_id _ hr, splitlinesGo_intercalate Q h1 h2 h3]

theorem pySplitGo_tokens :
    ∀ (s acc : List Char), (∀ c ∈ acc, pyIsSpace c = false) →
      ∀ t ∈ pySplitGo acc s, ¬t = [] ∧ ∀ c ∈ t, pyIsSpace c = false := by
  intro s
  induction s with
  | nil =>
      intro acc hacc t ht
      unfold pySplitGo at ht
      by_cases he : acc.isEmpty = true
      · simp [he] at ht
      · simp only [he, Bool.false_eq_true, if_false, List.mem_singleton] at ht
        subst ht
        have hane : ¬acc = [] := by simpa [List.isEmpty_iff] using he
        constructor
        · intro habs
          exact hane (List.reverse_eq_nil_iff.mp habs)
        · intro c hc
          exact hacc c (List.mem_reverse.mp hc)
  | cons c s' ih =>
      intro acc hacc t ht
      by_cases hsp : pyIsSpace c = true
      · rw [pySplitGo_cons_sp hsp] at ht
        by_cases he : acc.isEmpty = true
        · rw [if_pos he] at ht
          exact ih [] (by simp) t ht
        · rw [if_neg he] at ht
          rcases List.mem_cons.mp ht with rfl | ht'
          · have hane : ¬acc = [] := by simpa [List.isEmpty_iff] using he
            constructor
            · intro habs
              exact hane (List.reverse_eq_nil_iff.mp habs)
            · intro y hy
              exact hacc y (List.mem_reverse.mp hy)
          · exact ih [] (by simp) t ht'
      · rw [Bool.not_eq_true] at hsp
        rw [pySplitGo_cons_nonsp hsp] at ht
        refine ih (c :: acc) ?_ t ht
        intro y hy
        rcases List.mem_cons.mp hy with rfl | hy'
        · exact hsp
        · exact hacc y hy'

theorem pySplit_tokens (l : List Char) :
    ∀ t ∈ pySplit l, ¬t = [] ∧ ∀ c ∈ t, pyIsSpace c = false :=
  pySplitGo_tokens l [] (by simp)

theorem pySplitGo_token_append :
    ∀ t : List Char, (∀ c ∈ t, pyIsSpace c = false) →
      ∀ (acc r : List Char),
        pySplitGo acc (t ++ r) = pySplitGo (t.reverse ++ acc) r := by
  intro t
  induction t with
  | nil => intro _ acc r; simp
  | cons c t' ih =>
      intro h acc r
      have hc : pyIsSpace c = false := h c (List.mem_cons_self _ _)
      rw [List.cons_append, pySplitGo_cons_nonsp hc,
        ih (fun y hy => h y (List.mem_cons_of_mem _ hy)) (c :: acc) r]
      simp

theorem pySplit_intercalate :
    ∀ ts : List (List Char),
      (∀ t ∈ ts, ¬t = [] ∧ ∀ c ∈ t, pyIsSpace c = false) →
      pySplit (List.intercalate [' '] ts) = ts := by
  intro ts
  induction ts with
  | nil => intro _; rfl
  | cons t ts' ih =>
      intro h
      have ht := h t (List.mem_cons_self _ _)
      have hrevne : ¬(t.reverse ++ []).isEmpty = true := by
        simp only [List.append_nil, List.isEmpty_iff, List.reverse_eq_nil_iff]
        exact ht.1
      cases ts' with
      | nil =>
          rw [intercalate_single]
          unfold pySplit
          have happ := pySplitGo_token_append t ht.2 [] []
          rw [List.append_nil] at happ
          rw [happ]
          unfold pySplitGo
          rw [if_neg hrevne]
          simp
      | cons u ts'' =>
          rw [intercalate_cons₂]
          unfold pySplit
          rw [pySplitGo_token_append t ht.2 [] _,
            pySplitGo_cons_sp (by decide)]
          rw [if_neg hrevne]
          have h2 := ih (fun y hy => h y (List.mem_cons_of_mem _ hy))
          unfold pySplit at h2
          rw [h2]
          simp

theorem collapseGo_token_append :
    ∀ t : List Char, (∀ c ∈ t, isSpTab c = false) →
      ∀ (b : Bool) (r : List Char), ¬t = [] →
        collapseGo b (t ++ r) = t ++ collapseGo false r := by
  intro t
  induction t with
  | nil => intro _ b r h; exact absurd rfl h
  | cons c t' ih =>
      intro h b r _
      have hc : isSpTab c = false := h c (List.mem_cons_self _ _)
      rw [List.cons_append, collapseGo_cons_nonsp hc]
      cases ht' : t' with
      | nil => simp
      | cons d t'' =>
          rw [← ht',
            ih (fun y hy => h y (List.mem_cons_of_mem _ hy)) false r
              (by rw [ht']; simp)]
          rfl

theorem collapse_token_line :
    ∀ ts : List (List Char),
      (∀ t ∈ ts, ¬t = [] ∧ ∀ c ∈ t, isSpTab c = false) →
      ∀ b : Bool, collapseGo b (List.intercalate [' '] ts) =
        List.intercalate [' '] ts := by
  intro ts
  induction ts with
  | nil => intro _ b; rfl
  | cons t ts' ih =>
      intro h b
      have ht := h t (List.mem_cons_self _ _)
      cases ts' with
      | nil =>
          rw [intercalate_single]
          have happ := collapseGo_token_append t ht.2 b [] ht.1
          rw [List.append_nil] at happ
          rw [happ]
          simp [collapseGo]
      | cons u ts'' =>
          rw [intercalate_cons₂,
            collapseGo_token_append t ht.2 b _ ht.1,
            collapseGo_cons_sp_false (by decide),
            ih (fun y hy => h y (List.mem_cons_of_mem _ hy)) true]

theorem intercalate_append_single {x : Char} :
    ∀ (A : List (List Char)) (t : List Char), ¬A = [] →
      List.intercalate [x] (A ++ [t]) =
        List.intercalate [x] A ++ x :: t := by
  intro A
  induction A with
  | nil => intro t h; exact absurd rfl h
  | cons a A' ih =>
      intro t _
      cases A' with
      | nil =>
          rw [intercalate_single,
            show ([a] ++ [t] : List (List Char)) = [a, t] from rfl,
            intercalate_cons₂, intercalate_single]
      | cons b A'' =>
          rw [show ((a :: b :: A'') ++ [t] : List (List Char)) =
              a :: ((b :: A'') ++ [t]) from rfl]
          rw [show ((b :: A'') ++ [t] : List (List Char)) =
              b :: (A'' ++ [t]) from rfl]
          rw [intercalate_cons₂]
          rw [show (b :: (A'' ++ [t]) : List (List Char)) =
              (b :: A'') ++ [t] from rfl]
          rw [ih t (by simp), intercalate_cons₂]
          simp [List.append_assoc]

theorem reverse_intercalate {x : Char} :
    ∀ P : List (List Char),
      (List.intercalate [x] P).reverse =
        List.intercalate [x] (P.reverse.map List.reverse) := by
  intro P
  induction P with
  | nil => rfl
  | cons l P' ih =>
      cases P' with
      | nil => simp [intercalate_single]
      | cons m P'' =>
          rw [intercalate_cons₂, List.reverse_append, List.reverse_cons, ih]
          have hA : ¬((m :: P'').reverse.map List.reverse) = [] := by simp
          rw [show ((l :: m :: P'').reverse : List (List Char)) =
              (m :: P'').reverse ++ [l] by simp]
          rw [List.map_append,
            show List.map List.reverse [l] = [l.reverse] from rfl,
            intercalate_append_single _ _ hA]
          simp [List.append_assoc]

theorem intercalate_tokens_head {ts : List (List Char)}
    (h : ∀ t ∈ ts, ¬t = [] ∧ ∀ c ∈ t, pyIsSpace c = false) :
    ∀ c, (List.intercalate [' '] ts).head? = some c →
      pyIsSpace c = false := by
  intro c hc
  cases ts with
  | nil => simp [List.intercalate] at hc
  | cons t ts' =>
      have ht := h t (List.mem_cons_self _ _)
      have hh : (List.intercalate [' '] (t :: ts')).head? = t.head? := by
        cases ts' with
        | nil => rw [intercalate_single]
        | cons u ts'' =>
            rw [intercalate_cons₂]
            cases htt : t with
            | nil => exact absurd htt ht.1
            | cons a t' => rfl
      rw [hh] at hc
      exact ht.2 c (mem_of_head?_eq hc)

theorem intercalate_tokens_last {ts : List (List Char)}
    (h : ∀ t ∈ ts, ¬t = [] ∧ ∀ c ∈ t, pyIsSpace c = false) :
    ∀ c, (List.intercalate [' '] ts).getLast? = some c →
      pyIsSpace c = false := by
  intro c hc
  rw [← List.head?_reverse, reverse_intercalate] at hc
  refine intercalate_tokens_head ?_ c hc
  intro t htm
  rcases List.mem_map.mp htm with ⟨t0, ht0, rfl⟩
  have ht0' := h t0 (List.mem_reverse.mp ht0)
  constructor
  · simpa [List.reverse_eq_nil_iff] using ht0'.1
  · intro y hy
    exact ht0'.2 y (List.mem_reverse.mp hy)

theorem dropWhile_space_intercalate :
    ∀ P : List (List Char),
      (∀ l ∈ P, ∀ c, l.head? = some c → pyIsSpace c = false) →
      List.dropWhile pyIsSpace (List.intercalate ['\n'] P) =
        List.intercalate ['\n'] (P.dropWhile List.isEmpty) := by
  intro P
  induction P with
  | nil => intro _; rfl
  | cons l P' ih =>
      intro h
      cases l with
      | nil =>
          have hr : List.dropWhile List.isEmpty
              (([] : List Char) :: P') = P'.dropWhile List.isEmpty := by
            rw [List.dropWhile_cons, if_pos (by decide)]
          rw [hr]
          cases P' with
          | nil => rfl
          | cons m P'' =>
              rw [intercalate_cons₂, List.nil_append]
              have hL : List.dropWhile pyIsSpace
                  ('\n' :: List.intercalate ['\n'] (m :: P'')) =
                    List.dropWhile pyIsSpace
                      (List.intercalate ['\n'] (m :: P'')) := by
                rw [List.dropWhile_cons, if_pos (by decide)]
              rw [hL, ih (fun y hy => h y (List.mem_cons_of_mem _ hy))]
      | cons a t =>
          have ha : pyIsSpace a = false :=
            h (a :: t) (List.mem_cons_self _ _) a rfl
          have hr : List.dropWhile List.isEmpty ((a :: t) :: P') =
              (a :: t) :: P' := by
            rw [List.dropWhile_cons, if_neg (by simp)]
          rw [hr]
          cases P' with
          | nil =>
              rw [intercalate_single, List.dropWhile_cons,
                if_neg (by simp [ha])]
          | cons m P'' =>
              rw [intercalate_cons₂, List.cons_append,
                List.dropWhile_cons, if_neg (by simp [ha])]

theorem dropWhile_isEmpty_map_reverse :
    ∀ X : List (List Char),
      (X.map List.reverse).dropWhile List.isEmpty =
        (X.dropWhile List.isEmpty).map List.reverse := by
  intro X
  induction X with
  | nil => rfl
  | cons l X' ih =>
      rw [List.map_cons, List.dropWhile_cons, List.dropWhile_cons]
      by_cases he : l.isEmpty = true
      · have hre : l.reverse.isEmpty = true := by
          cases l with
          | nil => exact he
          | cons a as => simp at he
        rw [if_pos hre, if_pos he, ih]
      · have hre : ¬l.reverse.isEmpty = true := by
          cases l with
          | nil => exact absurd rfl he
          | cons a as => simp
        rw [if_neg hre, if_neg he, List.map_cons]

theorem pyStrip_intercalate :
    ∀ P : List (List Char),
      (∀ l ∈ P, ∀ c, l.head? = some c → pyIsSpace c = false) →
      (∀ l ∈ P, ∀ c, l.getLast? = some c → pyIsSpace c = false) →
      pyStrip (List.intercalate ['\n'] P) =
        List.intercalate ['\n'] (trimEmptyLines P) := by
  intro P hh hl
  have hAmem : ∀ l ∈ P.dropWhile List.isEmpty, l ∈ P :=
    fun l h => (List.dropWhile_sublist _).mem h
  have hh2 : ∀ l ∈ (P.dropWhile List.isEmpty).reverse.map List.reverse,
      ∀ c, l.head? = some c → pyIsSpace c = false := by
    intro l hl' c hc
    rcases List.mem_map.mp hl' with ⟨l0, hl0, rfl⟩
    rw [List.head?_reverse] at hc
    exact hl l0 (hAmem l0 (List.mem_reverse.mp hl0)) c hc
  unfold pyStrip trimEmptyLines
  rw [dropWhile_space_intercalate P hh, reverse_intercalate,
    dropWhile_space_intercalate _ hh2, dropWhile_isEmpty_map_reverse,
    reverse_intercalate]
  congr 1
  rw [← List.map_reverse, List.map_map]
  have : (List.reverse ∘ List.reverse : List Char → List Char) = id := by
    funext y
    simp
  rw [this, List.map_id]

theorem trimEmptyLines_eq_self {Q : List (List Char)}
    (h1 : ∀ l, Q.head? = some l → l.isEmpty = false)
    (h2 : ∀ l, Q.getLast? = some l → l.isEmpty = false) :
    trimEmptyLines Q = Q := by
  unfold trimEmptyLines
  rw [dropWhile_eq_self_of_head h1]
  rw [dropWhile_eq_self_of_head
    (fun l hl => h2 l (by rwa [List.head?_reverse] at hl))]
  exact Q.reverse_reverse

theorem trimEmptyLines_head (P : List (List Char)) :
    ∀ l, (trimEmptyLines P).head? = some l → l.isEmpty = false := by
  intro l hl
  unfold trimEmptyLines at hl
  rw [List.head?_reverse] at hl
  have hne : (P.dropWhile List.isEmpty).reverse.dropWhile List.isEmpty ≠
      [] := by
    intro he
    rw [he] at hl
    simp at hl
  rw [getLast?_dropWhile _ _ hne, getLast?_reverse'] at hl
  exact head_dropWhile_false _ _ _ hl

theorem trimEmptyLines_last (P : List (List Char)) :
    ∀ l, (trimEmptyLines P).getLast? = some l → l.isEmpty = false := by
  intro l hl
  unfold trimEmptyLines at hl
  rw [getLast?_reverse'] at hl
  exact head_dropWhile_false _ _ _ hl

theorem mem_trimEmptyLines {P : List (List Char)} {l : List Char}
    (h : l ∈ trimEmptyLines P) : l ∈ P := by
  unfold trimEmptyLines at h
  rw [List.mem_reverse] at h
  have h1 := (List.dropWhile_sublist _).mem h
  rw [List.mem_reverse] at h1
  exact (List.dropWhile_sublist _).mem h1

theorem limparParagrafo_tokens (par : List Char) :
    ∀ t ∈ (pySplit par).filter filtro_palavra,
      ¬t = [] ∧ ∀ c ∈ t, pyIsSpace c = false :=
  fun t ht => pySplit_tokens par t (List.mem_of_mem_filter ht)

theorem limparParagrafo_head (par : List Char) :
    ∀ c, (limparParagrafo par).head? = some c → pyIsSpace c = false := by
  intro c hc
  unfold limparParagrafo at hc
  exact intercalate_tokens_head (limparParagrafo_tokens par) c hc

theorem limparParagrafo_last (par : List Char) :
    ∀ c, (limparParagrafo par).getLast? = some c → pyIsSpace c = false := by
  intro c hc
  unfold limparParagrafo at hc
  exact intercalate_tokens_last (limparParagrafo_tokens par) c hc

theorem limparParagrafo_strip (par : List Char) :
    pyStrip (limparParagrafo par) = limparParagrafo par :=
  pyStrip_eq_self (limparParagrafo_head par) (limparParagrafo_last par)

theorem limparParagrafo_no_boundary (par : List Char) :
    ∀ c ∈ limparParagrafo par, isLineBoundary c = false := by
  intro c hc
  unfold limparParagrafo at hc
  rcases mem_intercalate _ hc with rfl | ⟨t, ht, hct⟩
  · decide
  · have hs := (limparParagrafo_tokens par t ht).2 c hct
    cases hb : isLineBoundary c with
    | false => rfl
    | true => exact absurd (boundary_isSpace c hb) (by simp [hs])

theorem limparParagrafo_collapse (par : List Char) :
    collapseSpaces (limparParagrafo par) = limparParagrafo par := by
  refine collapse_token_line _ (fun t ht => ?_) false
  refine ⟨(limparParagrafo_tokens par t ht).1, fun c hc => ?_⟩
  have hs := (limparParagrafo_tokens par t ht).2 c hc
  cases hb : isSpTab c with
  | false => rfl
  | true => exact absurd (sptab_isSpace c hb) (by simp [hs])

theorem limparParagrafo_idem (par : List Char) :
    limparParagrafo (limparParagrafo par) = limparParagrafo par := by
  have hts := limparParagrafo_tokens par
  unfold limparParagrafo
  rw [pySplit_intercalate _ hts,
    List.filter_eq_self.mpr (fun t ht => List.of_mem_filter ht)]

theorem linhasOf_intercalate {Q : List (List Char)}
    (hQmem : ∀ q ∈ Q, ∃ par, q = limparParagrafo par)
    (hQe : ¬Q = [])
    (hQlast2 : ∀ l, Q.getLast? = some l → l.isEmpty = false) :
    linhasOf (List.intercalate ['\n'] Q) = Q := by
  have hQlast : ¬Q.getLast? = some [] := by
    intro habs
    have := hQlast2 [] habs
    simp at this
  have hQbound : ∀ l ∈ Q, ∀ c ∈ l, isLineBoundary c = false := by
    intro l hl
    rcases hQmem l hl with ⟨par, rfl⟩
    exact limparParagrafo_no_boundary par
  unfold linhasOf
  rw [pySplitlines_intercalate Q hQe hQlast hQbound]
  have hid : ∀ q ∈ Q, pyStrip q = id q := by
    intro q hq
    rcases hQmem q hq with ⟨par, rfl⟩
    exact limparParagrafo_strip par
  rw [List.map_congr_left hid, List.map_id]

theorem limpar_fixed_point {Q : List (List Char)}
    (hQmem : ∀ q ∈ Q, ∃ par, q = limparParagrafo par)
    (hQhead : ∀ l, Q.head? = some l → l.isEmpty = false)
    (hQlast2 : ∀ l, Q.getLast? = some l → l.isEmpty = false)
    (hQe : ¬Q = [])
    (hH : ∀ q ∈ Q, dropLine q = false) :
    limpar_ruidos_ocr (List.intercalate ['\n'] Q) =
      List.intercalate ['\n'] Q := by
  have hQbound : ∀ l ∈ Q, ∀ c ∈ l, isLineBoundary c = false := by
    intro l hl
    rcases hQmem l hl with ⟨par, rfl⟩
    exact limparParagrafo_no_boundary par
  have hnl : ∀ l ∈ Q, ∀ c ∈ l, ¬c = '\n' :=
    fun l hl => no_boundary_no_nl (hQbound l hl)
  have hlin : linhasOf (List.intercalate ['\n'] Q) = Q :=
    linhasOf_intercalate hQmem hQe hQlast2
  have hlimpa : linhasLimpaOf (List.intercalate ['\n'] Q) = Q := by
    unfold linhasLimpaOf
    rw [hlin]
    refine List.filter_eq_self.mpr (fun q hq => ?_)
    simp [hH q hq]
  have ht2 : texto2Of (List.intercalate ['\n'] Q) =
      List.intercalate ['\n'] Q := by
    unfold texto2Of
    rw [hlimpa, collapse_intercalate Q hQe]
    have hid : ∀ q ∈ Q, collapseSpaces q = id q := by
      intro q hq
      rcases hQmem q hq with ⟨par, rfl⟩
      exact limparParagrafo_collapse par
    rw [List.map_congr_left hid, List.map_id]
  have hpar : paragrafosOf (List.intercalate ['\n'] Q) = Q := by
    unfold paragrafosOf
    rw [ht2, splitNl_intercalate Q hQe hnl]
    have hid : ∀ q ∈ Q, limparParagrafo q = id q := by
      intro q hq
      rcases hQmem q hq with ⟨par, rfl⟩
      exact limparParagrafo_idem par
    rw [List.map_congr_left hid, List.map_id]
  have hedge1 : ∀ l ∈ Q, ∀ c, l.head? = some c → pyIsSpace c = false := by
    intro l hl
    rcases hQmem l hl with ⟨par, rfl⟩
    exact limparParagrafo_head par
  have hedge2 : ∀ l ∈ Q, ∀ c, l.getLast? = some c → pyIsSpace c = false := by
    intro l hl
    rcases hQmem l hl with ⟨par, rfl⟩
    exact limparParagrafo_last par
  calc limpar_ruidos_ocr (List.intercalate ['\n'] Q)
      = pyStrip (List.intercalate ['\n']
          (paragrafosOf (List.intercalate ['\n'] Q))) := rfl
    _ = pyStrip (List.intercalate ['\n'] Q) := by rw [hpar]
    _ = List.intercalate ['\n'] (trimEmptyLines Q) :=
        pyStrip_intercalate Q hedge1 hedge2
    _ = List.intercalate ['\n'] Q := by
        rw [trimEmptyLines_eq_self hQhead hQlast2]

/-- Counterexample to C2 as stated: on `"bcdf # . # ."` one application
of the Noise Filter drops the vowel-less token `bcdf`, leaving the line
`"# . # ."` (0 letters, 4 symbols); a second application then drops
that whole line, yielding `""`, so the filter is not idempotent. -/
theorem c2_counterexample :
    ¬limpar_ruidos_ocr (limpar_ruidos_ocr (strL "bcdf # . # .")) =
      limpar_ruidos_ocr (strL "bcdf # . # .") := by decide

/-- C2 amended: the Noise Filter is idempotent on every input whose
filtered output contains no droppable line (no line with zero
alphabetic characters and more than 3 symbol characters); the token
filter can manufacture such a line out of a kept one, which is the only
source of non-idempotence. -/
theorem c2_noise_filter_conditional_idem :
    ∀ texto : List Char,
      (∀ l ∈ linhasOf (limpar_ruidos_ocr texto), dropLine l = false) →
      limpar_ruidos_ocr (limpar_ruidos_ocr texto) =
        limpar_ruidos_ocr texto := by
  intro s H
  have hPedge : ∀ p ∈ paragrafosOf s,
      (∀ c, p.head? = some c → pyIsSpace c = false) ∧
      (∀ c, p.getLast? = some c → pyIsSpace c = false) := by
    intro p hp
    rcases List.mem_map.mp hp with ⟨par, _, rfl⟩
    exact ⟨limparParagrafo_head par, limparParagrafo_last par⟩
  have hF : limpar_ruidos_ocr s =
      List.intercalate ['\n'] (trimEmptyLines (paragrafosOf s)) :=
    pyStrip_intercalate (paragrafosOf s)
      (fun l hl => (hPedge l hl).1) (fun l hl => (hPedge l hl).2)
  by_cases hQe : trimEmptyLines (paragrafosOf s) = []
  · rw [hF, hQe]
    decide
  · have hQmem : ∀ q ∈ trimEmptyLines (paragrafosOf s),
        ∃ par, q = limparParagrafo par := by
      intro q hq
      rcases List.mem_map.mp (mem_trimEmptyLines hq) with ⟨par, _, rfl⟩
      exact ⟨par, rfl⟩
    have hH : ∀ q ∈ trimEmptyLines (paragrafosOf s),
        dropLine q = false := by
      intro q hq
      refine H q ?_
      rw [hF, linhasOf_intercalate hQmem hQe
        (trimEmptyLines_last (paragrafosOf s))]
      exact hq
    rw [hF]
    exact limpar_fixed_point hQmem (trimEmptyLines_head (paragrafosOf s))
      (trimEmptyLines_last (paragrafosOf s)) hQe hH

/-- Witness for C2 amended: `"Ola mundo\n\nbom dia"` filters to itself
and has no droppable line, so a second pass changes nothing. -/
theorem c2_noise_filter_conditional_idem_witness :
    limpar_ruidos_ocr (limpar_ruidos_ocr (strL "Ola mundo\n\nbom dia")) =
      limpar_ruidos_ocr (strL "Ola mundo\n\nbom dia") :=
  c2_noise_filter_conditional_idem (strL "Ola mundo\n\nbom dia") (by decide)
